import Mathlib

/-!
# Lowering of statements to a control-flow graph: `CFGGen`

A shallow embedding of `lib/CFG/CFGGen/CFGGen.h`.  The engine state (the
graph under construction, the builder's insertion block, the two jump
destination stacks and the cleanup stack) is an explicit record; every
visitor is a function from a state to a `Result`, which is either a normal
return with the new state or a fatal stop recording the state reached.

The build mode is part of the embedding: `assert(false && ...)` stops the
process when assertions are enabled and is compiled out under `NDEBUG`, where
the statement visitors that consist of it have an empty body.
-/

set_option autoImplicit false

namespace swift

/-- Modelled from the spec: the type `CFGValue` (declared in `swift/CFG/CFG.h`,
which is not part of the sources at hand) is "an opaque handle produced by
lowering an expression".  `null` is the empty/void value: both the default
constructed `CFGValue()` and the null pointer `(Instruction*) 0`. -/
inductive CFGValue where
  | null
  | handle (id : Nat)
  deriving DecidableEq, Repr

/-- Expression node kinds.  The eight kinds named here are the ones for which
`CFGGen` declares a visitor of its own; `Other` stands for every remaining
kind, which the visitor dispatch sends to `visitExpr`. -/
inductive ExprKind where
  | Call
  | DeclRef
  | IntegerLiteral
  | Load
  | Paren
  | ThisApply
  | Tuple
  | TypeOf
  | Other (tag : Nat)
  deriving DecidableEq, Repr

/-- An expression node: its kind and the identity of the node. -/
structure Expr where
  kind : ExprKind
  node : Nat
  deriving DecidableEq, Repr

/-- A `ReturnStmt`: `hasResult()` is `Result.isSome`, `getResult()` its content. -/
structure ReturnStmt where
  Result : Option Expr
  deriving DecidableEq, Repr

/-- Statement nodes, one constructor for each `visit...Stmt` of `CFGGen`.
The conditional and loop forms carry only the identity of their node: their
visitors are declared in the header and defined elsewhere. -/
inductive Stmt where
  | Brace (elements : List Stmt)
  | Semi
  | Assign
  | Return (S : ReturnStmt)
  | If (node : Nat)
  | While (node : Nat)
  | DoWhile (node : Nat)
  | For
  | ForEach
  | Break
  | Continue

/-- Modelled from the spec: the type `Cleanup` (its header is not part of the
sources at hand): a cleanup entry is `{ scopeTag, action }`. -/
structure Cleanup where
  scopeTag : Nat
  action : Nat
  deriving DecidableEq, Repr

/-- Instructions of a basic block.  `Return`, `Branch` and `CondBranch` are the
terminators; `CleanupCode c` is the code emitted for running the cleanup `c`;
`Other` is any further non-terminator instruction. -/
inductive Instruction where
  | Return (Stmt : Option ReturnStmt) (ReturnValue : CFGValue)
  | Branch (target : Nat)
  | CondBranch (cond : CFGValue) (trueBB falseBB : Nat)
  | CleanupCode (c : Cleanup)
  | Other (tag : Nat)
  deriving DecidableEq, Repr

/-- Terminators: branch, conditional branch and return. -/
def Instruction.isTerminator : Instruction → Bool
  | .Return _ _ => true
  | .Branch _ => true
  | .CondBranch _ _ _ => true
  | .CleanupCode _ => false
  | .Other _ => false

/-- A basic block: its ordered sequence of instructions. -/
structure BasicBlock where
  insts : List Instruction
  deriving DecidableEq, Repr

/-- A block has exactly one terminator and no instruction after it: its
instruction list is non-terminators followed by one terminator. -/
def BasicBlock.terminated (b : BasicBlock) : Bool :=
  match b.insts.reverse with
  | [] => false
  | t :: before => t.isTerminator && before.all (fun i => !i.isTerminator)

/-- A block is open when it holds no terminator. -/
def BasicBlock.isOpen (b : BasicBlock) : Bool :=
  b.insts.all (fun i => !i.isTerminator)

/-- Modelled from the spec: the graph `CFG` (declared in `swift/CFG/CFG.h`,
not part of the sources at hand) "owns an ordered collection of Basic Blocks".
A block is referred to by its position in the collection. -/
structure CFG where
  blocks : List BasicBlock
  deriving DecidableEq, Repr

/-- Modelled from the spec: `new (C) BasicBlock(&C)`, the graph allocating a new
block: the new block is empty and is added at the end of the collection.  The
result is the graph and the reference to the new block. -/
def CFG.newBlock (C : CFG) : CFG × Nat :=
  ({ blocks := C.blocks ++ [{ insts := [] }] }, C.blocks.length)

/-- Modelled from the spec: the builder's "append instruction" on block `bb`. -/
def CFG.append (C : CFG) (bb : Nat) (i : Instruction) : CFG :=
  match C.blocks[bb]? with
  | some b => { blocks := C.blocks.set bb { insts := b.insts ++ [i] } }
  | none => C

/-- Modelled from the spec: the block builder `CFGBuilder` (declared in
`swift/CFG/CFGBuilder.h`, not part of the sources at hand) "owns a mutable
current insertion point into the graph".  `BB` is the current insertion block,
`none` when there is no current block. -/
structure CFGBuilder where
  BB : Option Nat
  deriving DecidableEq, Repr

/-- The builder's current insertion block (`nullptr` is `none`). -/
def CFGBuilder.getInsertionBB (B : CFGBuilder) : Option Nat := B.BB

namespace Lowering

/-- Modelled from the spec: `JumpDest` (declared in `JumpDest.h`, not part of
the sources at hand) is `{ target: BlockRef, cleanupDepth: StableDepth }`. -/
structure JumpDest where
  target : Nat
  cleanupDepth : Nat
  deriving DecidableEq, Repr

/-- The state of a `CFGGen`: the fields of the class.  `Cleanups` models the
`DiverseStack` as a list whose head is the innermost (most recently pushed)
cleanup; the jump destination stacks are lists whose head is `back()`. -/
structure CFGGen where
  C : CFG
  B : CFGBuilder
  BreakDestStack : List JumpDest
  ContinueDestStack : List JumpDest
  Cleanups : List Cleanup
  deriving DecidableEq, Repr

/-- Outcome of running a visitor: `ok v s` is a normal return of `v` in state
`s`; `fatal s` is the process stopping (failed assertion, unreachable) when the
engine was in state `s`. -/
inductive Result (α : Type) where
  | ok (val : α) (s : CFGGen)
  | fatal (s : CFGGen)
  deriving DecidableEq, Repr

/-- Modelled from the spec: `CFGBuilder::createReturn` ("terminate a block with
a return", after which a return "leaves no current block"): the return
instruction is appended to the current insertion block and the insertion point
is cleared.  Without a current block nothing is inserted. -/
def createReturn (S : Option ReturnStmt) (ReturnValue : CFGValue) (s : CFGGen) : CFGGen :=
  match s.B.BB with
  | some bb => { s with C := s.C.append bb (.Return S ReturnValue), B := { BB := none } }
  | none => s

/-- Modelled from the spec: the builder's "append-instruction", for the
instructions `is` in order: they are added at the end of the current insertion
block and the insertion point stays there.  Without a current block nothing is
inserted. -/
def emit (is : List Instruction) (s : CFGGen) : CFGGen :=
  match s.B.BB with
  | some bb => { s with C := is.foldl (fun C i => C.append bb i) s.C }
  | none => s

/-- The constructor `CFGGen(CFG &C) : C(C), B(new (C) BasicBlock(&C), C)`: a new
block is allocated in `C` and the builder is positioned on it; the vectors and
the cleanup stack are default constructed, hence empty. -/
def CFGGen.create (C : CFG) : CFGGen :=
  { C := C.newBlock.1
    B := { BB := some C.newBlock.2 }
    BreakDestStack := []
    ContinueDestStack := []
    Cleanups := [] }

/-- The destructor `~CFGGen()`: "If we have an unterminated block, just emit a
dummy return for the default return." -/
def CFGGen.destroy (s : CFGGen) : CFGGen :=
  if s.B.getInsertionBB ≠ none then
    createReturn none CFGValue.null s
  else
    s

/-- The member `getCleanupsDepth()`: `Cleanups.stable_begin()`, the stable
reference to the current top of the cleanup stack: the number of entries the
stack holds at the time of the call. -/
def getCleanupsDepth (s : CFGGen) : Nat := s.Cleanups.length

/-- What `CFGGen.h` takes from its surroundings, as parameters: the build mode
(`NDEBUG` set compiles every `assert` out), and the visitors that the header
declares and does not define: the eight expression visitors and the
conditional and loop statement visitors. -/
structure Declared where
  NDEBUG : Bool
  visitCallExpr : Expr → CFGGen → Result CFGValue
  visitDeclRefExpr : Expr → CFGGen → Result CFGValue
  visitIntegerLiteralExpr : Expr → CFGGen → Result CFGValue
  visitLoadExpr : Expr → CFGGen → Result CFGValue
  visitParenExpr : Expr → CFGGen → Result CFGValue
  visitThisApplyExpr : Expr → CFGGen → Result CFGValue
  visitTupleExpr : Expr → CFGGen → Result CFGValue
  visitTypeOfExpr : Expr → CFGGen → Result CFGValue
  visitIfStmt : Nat → CFGGen → Result Unit
  visitWhileStmt : Nat → CFGGen → Result Unit
  visitDoWhileStmt : Nat → CFGGen → Result Unit

/-- The member `visitExpr`: `E->dump(); llvm_unreachable("Not yet implemented")`.
The dump writes to the error stream only; the engine state is untouched when
the process stops.  With assertions enabled `llvm_unreachable` reports and
aborts; under `NDEBUG` it only declares the point never reached, and the
embedding keeps the stop there: what is stated below about unsupported
expressions is stated for builds with assertions. -/
def visitExpr (_E : Expr) (s : CFGGen) : Result CFGValue := .fatal s

/-- The visitor dispatch `visit(Expr*)` of `ASTVisitor`: a kind with a visitor
of its own goes to it, every other kind falls back to `visitExpr`. -/
def visitE (d : Declared) (E : Expr) (s : CFGGen) : Result CFGValue :=
  match E.kind with
  | .Call => d.visitCallExpr E s
  | .DeclRef => d.visitDeclRefExpr E s
  | .IntegerLiteral => d.visitIntegerLiteralExpr E s
  | .Load => d.visitLoadExpr E s
  | .Paren => d.visitParenExpr E s
  | .ThisApply => d.visitThisApplyExpr E s
  | .Tuple => d.visitTupleExpr E s
  | .TypeOf => d.visitTypeOfExpr E s
  | .Other _ => visitExpr E s

/-- The member `visitSemiStmt`: "SemiStmts are ignored for CFG construction". -/
def visitSemiStmt (s : CFGGen) : Result Unit := .ok () s

/-- The statement `assert(false && "...")`: with assertions enabled the process
stops; under `NDEBUG` the statement expands to nothing and control goes on in
the same state. -/
def assertFalse (NDEBUG : Bool) (s : CFGGen) : Result Unit :=
  if NDEBUG then .ok () s else .fatal s

/-- The member `visitAssignStmt`: `assert(false && "Not yet implemented")`. -/
def visitAssignStmt (NDEBUG : Bool) (s : CFGGen) : Result Unit := assertFalse NDEBUG s

/-- The member `visitForStmt`: `assert(false && "Not yet implemented")`. -/
def visitForStmt (NDEBUG : Bool) (s : CFGGen) : Result Unit := assertFalse NDEBUG s

/-- The member `visitForEachStmt`: `assert(false && "Not yet implemented")`. -/
def visitForEachStmt (NDEBUG : Bool) (s : CFGGen) : Result Unit := assertFalse NDEBUG s

/-- The member `visitReturnStmt`:
`CFGValue ArgV = S->hasResult() ? visit(S->getResult()) : (Instruction*) 0;`
`B.createReturn(S, ArgV);` -/
def visitReturnStmt (d : Declared) (S : ReturnStmt) (s : CFGGen) : Result Unit :=
  match S.Result with
  | some E =>
    match visitE d E s with
    | .ok ArgV s1 => .ok () (createReturn (some S) ArgV s1)
    | .fatal s1 => .fatal s1
  | none => .ok () (createReturn (some S) CFGValue.null s)

/-- Modelled from the spec: `emitBranch`, which the header only declares: "Walks
the Cleanup Stack from its current depth down to `destination.cleanupDepth`,
emitting each cleanup action's code in LIFO order into the current block, then
emits an unconditional branch to `destination.target`."  The cleanup stack
itself is only read, and, in the words of the header, the call "Leaves the
insertion point in the current block". -/
def emitBranch (D : JumpDest) (s : CFGGen) : CFGGen :=
  emit ((s.Cleanups.take (getCleanupsDepth s - D.cleanupDepth)).map .CleanupCode
    ++ [.Branch D.target]) s

/-- Modelled from the spec: `visitBreakStmt`, which the header declares and does
not define: "looks up the top of the respective destination stack (fails
fatally ... if the stack is empty ...); emits a branch to that destination via
`emitBranch`". -/
def visitBreakStmt (s : CFGGen) : Result Unit :=
  match s.BreakDestStack with
  | [] => .fatal s
  | D :: _ => .ok () (emitBranch D s)

/-- Modelled from the spec: `visitContinueStmt`, which the header declares and
does not define: as `visitBreakStmt`, on the continue destination stack. -/
def visitContinueStmt (s : CFGGen) : Result Unit :=
  match s.ContinueDestStack with
  | [] => .fatal s
  | D :: _ => .ok () (emitBranch D s)

mutual
/-- The visitor dispatch `visit(Stmt*)` of `ASTVisitor`, on the statement
visitors of `CFGGen`. -/
def visit (d : Declared) : Stmt → CFGGen → Result Unit
  | .Brace elements, s => visitBraceStmt d elements s
  | .Semi, s => visitSemiStmt s
  | .Assign, s => visitAssignStmt d.NDEBUG s
  | .Return S, s => visitReturnStmt d S s
  | .If n, s => d.visitIfStmt n s
  | .While n, s => d.visitWhileStmt n s
  | .DoWhile n, s => d.visitDoWhileStmt n s
  | .For, s => visitForStmt d.NDEBUG s
  | .ForEach, s => visitForEachStmt d.NDEBUG s
  | .Break, s => visitBreakStmt s
  | .Continue, s => visitContinueStmt s
/-- Modelled from the spec: `visitBraceStmt`, which the header declares and does
not define: a compound statement "lowers each child in order"; the first fatal
stop ends the lowering. -/
def visitBraceStmt (d : Declared) : List Stmt → CFGGen → Result Unit
  | [], s => .ok () s
  | S :: rest, s =>
    match visit d S s with
    | .ok _ s1 => visitBraceStmt d rest s1
    | .fatal s1 => .fatal s1
end

/-- Lowering one function-like body: construct the engine on the graph, lower
the root statement, and finalise (the destructor runs when the engine goes out
of scope).  A fatal stop yields no graph. -/
def lowerBody (d : Declared) (C : CFG) (root : Stmt) : Option CFG :=
  match visit d root (CFGGen.create C) with
  | .ok _ s => some (CFGGen.destroy s).C
  | .fatal _ => none

/-- The statement is a `ReturnStmt`. -/
def Stmt.isReturn : Stmt → Bool
  | .Return _ => true
  | _ => false

/-- Modelled from the spec: the expression visitors, which the header declares
and does not define, are control-flow trivial: "Expressions lower to a value
plus leave control flow in the current block".  Whenever lowering an
expression returns, it has only appended non-terminator instructions to the
current block. -/
def Declared.straightLine (d : Declared) : Prop :=
  ∀ E s ArgV s1, visitE d E s = .ok ArgV s1 →
    ∃ is : List Instruction, (∀ i ∈ is, i.isTerminator = false) ∧ s1 = emit is s

/-- A sample choice of the parameters, for evaluating the embedding on concrete
inputs: a build with assertions, in which an integer literal appends one
instruction to the current block and yields a handle named after its node;
every other declared visitor stops. -/
def Declared.literals : Declared :=
  { NDEBUG := false
    visitCallExpr := fun _ s => .fatal s
    visitDeclRefExpr := fun _ s => .fatal s
    visitIntegerLiteralExpr := fun E s => .ok (.handle E.node) (emit [.Other E.node] s)
    visitLoadExpr := fun _ s => .fatal s
    visitParenExpr := fun _ s => .fatal s
    visitThisApplyExpr := fun _ s => .fatal s
    visitTupleExpr := fun _ s => .fatal s
    visitTypeOfExpr := fun _ s => .fatal s
    visitIfStmt := fun _ s => .fatal s
    visitWhileStmt := fun _ s => .fatal s
    visitDoWhileStmt := fun _ s => .fatal s }

theorem CFG.append_length (C : CFG) (bb : Nat) (i : Instruction) :
    (C.append bb i).blocks.length = C.blocks.length := by
  unfold CFG.append
  cases h : C.blocks[bb]? <;> simp

theorem CFG.append_self (C : CFG) (bb : Nat) (i : Instruction) (b : BasicBlock)
    (hb : C.blocks[bb]? = some b) :
    (C.append bb i).blocks[bb]? = some { insts := b.insts ++ [i] } := by
  have hlt : bb < C.blocks.length := by
    rcases Nat.lt_or_ge bb C.blocks.length with h | h
    · exact h
    · rw [List.getElem?_eq_none h] at hb
      cases hb
  unfold CFG.append
  simp [hb, List.getElem?_set_self hlt]

theorem CFG.append_other (C : CFG) (bb j : Nat) (i : Instruction) (hj : j ≠ bb) :
    (C.append bb i).blocks[j]? = C.blocks[j]? := by
  unfold CFG.append
  cases h : C.blocks[bb]? with
  | none => rfl
  | some b => simp [List.getElem?_set_ne (Ne.symm hj)]

theorem CFG.append_last (before : List BasicBlock) (b : BasicBlock) (i : Instruction) :
    CFG.append { blocks := before ++ [b] } before.length i
      = { blocks := before ++ [{ insts := b.insts ++ [i] }] } := by
  unfold CFG.append
  simp

/-! ## Facts about the builder operations -/

theorem createReturn_blocks_self (S : Option ReturnStmt) (v : CFGValue) (s : CFGGen)
    (bb : Nat) (b : BasicBlock) (hcur : s.B.BB = some bb) (hb : s.C.blocks[bb]? = some b) :
    (createReturn S v s).C.blocks[bb]? = some { insts := b.insts ++ [.Return S v] } := by
  unfold createReturn
  simp [hcur, CFG.append_self _ _ _ _ hb]

theorem createReturn_C (S : Option ReturnStmt) (v : CFGValue) (s : CFGGen)
    (bb : Nat) (hcur : s.B.BB = some bb) :
    (createReturn S v s).C = s.C.append bb (.Return S v) := by
  unfold createReturn
  simp [hcur]

theorem createReturn_BB (S : Option ReturnStmt) (v : CFGValue) (s : CFGGen) :
    (createReturn S v s).B.BB = none := by
  unfold createReturn
  cases h : s.B.BB <;> simp [h]

theorem foldl_append_self (bb : Nat) (is : List Instruction) :
    ∀ (C : CFG) (b : BasicBlock), C.blocks[bb]? = some b →
      (is.foldl (fun C i => C.append bb i) C).blocks[bb]? = some { insts := b.insts ++ is } := by
  induction is with
  | nil =>
    intro C b hb
    simpa using hb
  | cons i rest ih =>
    intro C b hb
    have h1 := CFG.append_self C bb i b hb
    have h2 := ih (C.append bb i) _ h1
    simpa using h2

theorem foldl_append_other (bb j : Nat) (hj : j ≠ bb) (is : List Instruction) :
    ∀ C : CFG, (is.foldl (fun C i => C.append bb i) C).blocks[j]? = C.blocks[j]? := by
  induction is with
  | nil =>
    intro C
    rfl
  | cons i rest ih =>
    intro C
    have h2 := ih (C.append bb i)
    rw [CFG.append_other C bb j i hj] at h2
    simpa using h2

theorem foldl_append_last (before : List BasicBlock) (is : List Instruction) :
    ∀ b : BasicBlock,
      is.foldl (fun C i => C.append before.length i) { blocks := before ++ [b] }
        = ({ blocks := before ++ [{ insts := b.insts ++ is }] } : CFG) := by
  induction is with
  | nil =>
    intro b
    simp
  | cons i rest ih =>
    intro b
    rw [List.foldl_cons, CFG.append_last, ih]
    simp

theorem terminated_of_isOpen (b : BasicBlock) (t : Instruction) (hopen : b.isOpen = true)
    (ht : t.isTerminator = true) :
    BasicBlock.terminated { insts := b.insts ++ [t] } = true := by
  unfold BasicBlock.isOpen at hopen
  unfold BasicBlock.terminated
  simp only [List.reverse_append, List.reverse_cons, List.reverse_nil, List.nil_append,
    List.singleton_append, List.all_reverse]
  rw [ht, hopen]
  rfl

theorem isOpen_append (b : BasicBlock) (is : List Instruction) (hopen : b.isOpen = true)
    (his : ∀ i ∈ is, i.isTerminator = false) :
    BasicBlock.isOpen { insts := b.insts ++ is } = true := by
  unfold BasicBlock.isOpen at hopen ⊢
  rw [List.all_append, hopen, Bool.true_and, List.all_eq_true]
  intro i hi
  rw [his i hi]
  rfl

theorem createReturn_last (S : Option ReturnStmt) (v : CFGValue) (s : CFGGen)
    (before : List BasicBlock) (b : BasicBlock)
    (hC : s.C.blocks = before ++ [b]) (hcur : s.B.BB = some before.length) :
    (createReturn S v s).C.blocks = before ++ [{ insts := b.insts ++ [.Return S v] }] := by
  have hCeq : s.C = { blocks := before ++ [b] } := by
    cases hc : s.C with
    | mk bs =>
      rw [hc] at hC
      simp only at hC
      rw [hC]
  unfold createReturn
  simp only [hcur]
  rw [hCeq, CFG.append_last]

theorem emit_last (is : List Instruction) (s : CFGGen)
    (before : List BasicBlock) (b : BasicBlock)
    (hC : s.C.blocks = before ++ [b]) (hcur : s.B.BB = some before.length) :
    (emit is s).C.blocks = before ++ [{ insts := b.insts ++ is }] ∧
      (emit is s).B.BB = some before.length := by
  have hCeq : s.C = { blocks := before ++ [b] } := by
    cases hc : s.C with
    | mk bs =>
      rw [hc] at hC
      simp only at hC
      rw [hC]
  unfold emit
  simp only [hcur]
  rw [hCeq, foldl_append_last]
  exact ⟨rfl, trivial⟩

/-! ## Facts about lowering a body of semi statements and returns -/

theorem visitBraceStmt_semis (d : Declared) :
    ∀ (body : List Stmt) (s : CFGGen), (∀ S ∈ body, S = Stmt.Semi) →
      visitBraceStmt d body s = .ok () s := by
  intro body
  induction body with
  | nil =>
    intro s _
    rfl
  | cons S rest ih =>
    intro s h
    have hS : S = Stmt.Semi := h S (List.mem_cons_self _ _)
    subst hS
    have hrest : ∀ S ∈ rest, S = Stmt.Semi := fun S hS => h S (List.mem_cons_of_mem _ hS)
    simp only [visitBraceStmt, visit, visitSemiStmt]
    exact ih s hrest

theorem visitBraceStmt_returns (d : Declared) :
    ∀ (body : List Stmt) (s : CFGGen),
      (∀ S ∈ body, S = Stmt.Semi ∨ S = Stmt.Return { Result := none }) →
      ∃ s1, visitBraceStmt d body s = .ok () s1 := by
  intro body
  induction body with
  | nil =>
    intro s _
    exact ⟨s, rfl⟩
  | cons S rest ih =>
    intro s h
    have hrest : ∀ S ∈ rest, S = Stmt.Semi ∨ S = Stmt.Return { Result := none } :=
      fun S hS => h S (List.mem_cons_of_mem _ hS)
    rcases h S (List.mem_cons_self _ _) with hS | hS
    · subst hS
      simp only [visitBraceStmt, visit, visitSemiStmt]
      exact ih s hrest
    · subst hS
      simp only [visitBraceStmt, visit, visitReturnStmt]
      exact ih _ hrest

theorem visitReturnStmt_closes (d : Declared) (hd : d.straightLine) (R : ReturnStmt)
    (s s1 : CFGGen) (before : List BasicBlock) (b : BasicBlock)
    (hC : s.C.blocks = before ++ [b]) (hcur : s.B.BB = some before.length)
    (hopen : b.isOpen = true) (h : visitReturnStmt d R s = .ok () s1) :
    s1.B.BB = none ∧ ∃ b1, s1.C.blocks = before ++ [b1] ∧ b1.terminated = true := by
  unfold visitReturnStmt at h
  cases hres : R.Result with
  | none =>
    rw [hres] at h
    simp only [Result.ok.injEq, true_and] at h
    subst h
    refine ⟨createReturn_BB _ _ _, _, createReturn_last _ _ s before b hC hcur, ?_⟩
    exact terminated_of_isOpen b _ hopen rfl
  | some E =>
    rw [hres] at h
    cases hval : visitE d E s with
    | fatal s0 =>
      simp only [hval] at h
      cases h
    | ok ArgV s0 =>
      simp only [hval, Result.ok.injEq, true_and] at h
      subst h
      obtain ⟨is, his, hs0⟩ := hd E s ArgV s0 hval
      subst hs0
      obtain ⟨hC0, hcur0⟩ := emit_last is s before b hC hcur
      refine ⟨createReturn_BB _ _ _, _, createReturn_last _ _ _ before _ hC0 hcur0, ?_⟩
      exact terminated_of_isOpen _ _ (isOpen_append b is hopen his) rfl

theorem visitBraceStmt_one_return (d : Declared) (hd : d.straightLine)
    (before : List BasicBlock) (b : BasicBlock) (hopen : b.isOpen = true) :
    ∀ (body : List Stmt) (s s1 : CFGGen),
      (∀ S ∈ body, S = Stmt.Semi ∨ ∃ R, S = Stmt.Return R) →
      (body.filter Stmt.isReturn).length ≤ 1 →
      s.C.blocks = before ++ [b] → s.B.BB = some before.length →
      visitBraceStmt d body s = .ok () s1 →
      (s1 = s ∧ (body.filter Stmt.isReturn).length = 0) ∨
      (s1.B.BB = none ∧ (∃ b1, s1.C.blocks = before ++ [b1] ∧ b1.terminated = true) ∧
        (body.filter Stmt.isReturn).length = 1) := by
  intro body
  induction body with
  | nil =>
    intro s s1 _ _ _ _ h
    simp only [visitBraceStmt, Result.ok.injEq, true_and] at h
    exact Or.inl ⟨h.symm, rfl⟩
  | cons S rest ih =>
    intro s s1 hkind hone hC hcur h
    have hrest : ∀ S ∈ rest, S = Stmt.Semi ∨ ∃ R, S = Stmt.Return R :=
      fun S hS => hkind S (List.mem_cons_of_mem _ hS)
    rcases hkind S (List.mem_cons_self _ _) with hS | ⟨R, hS⟩
    · subst hS
      simp only [visitBraceStmt, visit, visitSemiStmt] at h
      have hf : (Stmt.Semi :: rest).filter Stmt.isReturn = rest.filter Stmt.isReturn := by
        simp [List.filter, Stmt.isReturn]
      rw [hf] at hone ⊢
      exact ih s s1 hrest hone hC hcur h
    · subst hS
      have hf : (Stmt.Return R :: rest).filter Stmt.isReturn
          = Stmt.Return R :: rest.filter Stmt.isReturn := by
        simp [List.filter, Stmt.isReturn]
      rw [hf, List.length_cons] at hone ⊢
      have hnone : (rest.filter Stmt.isReturn).length = 0 := by omega
      have hsemis : ∀ S ∈ rest, S = Stmt.Semi := by
        intro S hS
        rcases hrest S hS with h1 | ⟨R1, h1⟩
        · exact h1
        · exfalso
          have hmem : S ∈ rest.filter Stmt.isReturn := by
            rw [List.mem_filter]
            exact ⟨hS, by rw [h1]; rfl⟩
          rw [List.length_eq_zero] at hnone
          rw [hnone] at hmem
          cases hmem
      simp only [visitBraceStmt, visit] at h
      cases hret : visitReturnStmt d R s with
      | fatal s0 =>
        simp only [hret] at h
        cases h
      | ok u s0 =>
        simp only [hret] at h
        rw [visitBraceStmt_semis d rest s0 hsemis] at h
        simp only [Result.ok.injEq, true_and] at h
        subst h
        obtain ⟨hBB, hb1⟩ := visitReturnStmt_closes d hd R s s0 before b hC hcur hopen hret
        exact Or.inr ⟨hBB, hb1, by omega⟩

theorem literals_straightLine : Declared.literals.straightLine := by
  intro E s ArgV s1 h
  unfold visitE at h
  cases hk : E.kind <;> rw [hk] at h <;>
    simp only [Declared.literals, visitExpr, Result.ok.injEq, reduceCtorEq] at h
  obtain ⟨_, hs⟩ := h
  refine ⟨[.Other E.node], ?_, hs.symm⟩
  intro i hi
  simp only [List.mem_singleton] at hi
  subst hi
  rfl

/-! ## The claims -/

/-- C1 (fallthrough default return): when the builder still has a current
insertion block `bb` at finalisation, the destructor appends exactly one
instruction to that block, a return with no statement and the empty value;
every other block, and the number of blocks, is as before. -/
theorem destroy_appends_default_return (s : CFGGen) (bb : Nat) (b : BasicBlock)
    (hcur : s.B.getInsertionBB = some bb) (hb : s.C.blocks[bb]? = some b) :
    (CFGGen.destroy s).C.blocks[bb]?
        = some { insts := b.insts ++ [.Return none CFGValue.null] } ∧
      (∀ j, j ≠ bb → (CFGGen.destroy s).C.blocks[j]? = s.C.blocks[j]?) ∧
      (CFGGen.destroy s).C.blocks.length = s.C.blocks.length := by
  have hcur' : s.B.BB = some bb := hcur
  have hne : s.B.getInsertionBB ≠ none := by rw [hcur]; simp
  unfold CFGGen.destroy
  rw [if_pos hne]
  refine ⟨createReturn_blocks_self _ _ s bb b hcur' hb, ?_, ?_⟩
  · intro j hj
    rw [createReturn_C _ _ s bb hcur']
    exact CFG.append_other _ _ _ _ hj
  · rw [createReturn_C _ _ s bb hcur']
    exact CFG.append_length _ _ _

/-- Witness of C1: a graph of two blocks, the builder positioned on the second
one, which already holds an instruction. -/
theorem destroy_appends_default_return_witness :
    (CFGGen.destroy
        { C := { blocks := [{ insts := [.Other 1] }, { insts := [.Other 2] }] }
          B := { BB := some 1 }
          BreakDestStack := []
          ContinueDestStack := []
          Cleanups := [] }).C.blocks[1]?
      = some { insts := [.Other 2] ++ [.Return none CFGValue.null] } :=
  (destroy_appends_default_return
    { C := { blocks := [{ insts := [.Other 1] }, { insts := [.Other 2] }] }
      B := { BB := some 1 }
      BreakDestStack := []
      ContinueDestStack := []
      Cleanups := [] } 1 { insts := [.Other 2] } rfl rfl).1

/-- C2 (cleanups on return), evaluated on the code: with one cleanup pending and
an open, empty current block, lowering `return;` puts the return terminator
alone into the block, with no cleanup code before it, and leaves the cleanup
stack as it was. -/
theorem visitReturnStmt_emits_no_cleanup :
    ∀ d : Declared,
      visitReturnStmt d { Result := none }
          { C := { blocks := [{ insts := [] }] }
            B := { BB := some 0 }
            BreakDestStack := []
            ContinueDestStack := []
            Cleanups := [{ scopeTag := 1, action := 7 }] }
        = .ok ()
          { C := { blocks := [{ insts := [.Return (some { Result := none }) CFGValue.null] }] }
            B := { BB := none }
            BreakDestStack := []
            ContinueDestStack := []
            Cleanups := [{ scopeTag := 1, action := 7 }] } := by
  intro d
  rfl

/-- C3 (return value): in a state whose current block is `bb`, a return
statement without result lowers no expression and appends to `bb` exactly the
return terminator of that statement with the empty value; a return statement
whose result expression lowers to the value `ArgV` appends to the current block
reached by that lowering the return terminator of that statement with operand
`ArgV`. -/
theorem visitReturnStmt_operand (d : Declared) (S : ReturnStmt) (s : CFGGen) :
    (∀ bb b, S.Result = none → s.B.getInsertionBB = some bb → s.C.blocks[bb]? = some b →
      ∃ s1, visitReturnStmt d S s = .ok () s1 ∧
        s1.C = s.C.append bb (.Return (some S) CFGValue.null) ∧
        s1.C.blocks[bb]? = some { insts := b.insts ++ [.Return (some S) CFGValue.null] }) ∧
    (∀ E ArgV s0 bb b, S.Result = some E → visitE d E s = .ok ArgV s0 →
      s0.B.getInsertionBB = some bb → s0.C.blocks[bb]? = some b →
      ∃ s1, visitReturnStmt d S s = .ok () s1 ∧
        s1.C = s0.C.append bb (.Return (some S) ArgV) ∧
        s1.C.blocks[bb]? = some { insts := b.insts ++ [.Return (some S) ArgV] }) := by
  constructor
  · intro bb b hres hcur hb
    refine ⟨createReturn (some S) CFGValue.null s, ?_, ?_, ?_⟩
    · unfold visitReturnStmt
      rw [hres]
    · exact createReturn_C _ _ s bb hcur
    · exact createReturn_blocks_self _ _ s bb b hcur hb
  · intro E ArgV s0 bb b hres hval hcur hb
    refine ⟨createReturn (some S) ArgV s0, ?_, ?_, ?_⟩
    · unfold visitReturnStmt
      rw [hres]
      simp only [hval]
    · exact createReturn_C _ _ s0 bb hcur
    · exact createReturn_blocks_self _ _ s0 bb b hcur hb

/-- C4 (return leaves no current block): from a state with a current block,
whenever `visitReturnStmt` returns, the builder has no insertion block; and it
does return when the statement has no result, and when its result expression
lowers to a value. -/
theorem visitReturnStmt_no_current_block (d : Declared) (S : ReturnStmt) (s : CFGGen)
    (bb : Nat) (_hcur : s.B.getInsertionBB = some bb) :
    (∀ s1, visitReturnStmt d S s = .ok () s1 → s1.B.getInsertionBB = none) ∧
    (S.Result = none → ∃ s1, visitReturnStmt d S s = .ok () s1) ∧
    (∀ E ArgV s0, S.Result = some E → visitE d E s = .ok ArgV s0 →
      ∃ s1, visitReturnStmt d S s = .ok () s1) := by
  refine ⟨?_, ?_, ?_⟩
  · intro s1 h
    unfold visitReturnStmt at h
    cases hres : S.Result with
    | none =>
      rw [hres] at h
      simp only [Result.ok.injEq, true_and] at h
      rw [← h]
      exact createReturn_BB _ _ _
    | some E =>
      rw [hres] at h
      cases hval : visitE d E s with
      | ok ArgV s0 =>
        simp only [hval, Result.ok.injEq, true_and] at h
        rw [← h]
        exact createReturn_BB _ _ _
      | fatal s0 =>
        simp only [hval] at h
        cases h
  · intro hres
    refine ⟨createReturn (some S) CFGValue.null s, ?_⟩
    unfold visitReturnStmt
    rw [hres]
  · intro E ArgV s0 hres hval
    refine ⟨createReturn (some S) ArgV s0, ?_⟩
    unfold visitReturnStmt
    rw [hres]
    simp only [hval]

/-- C8 (break and continue outside a loop): with an empty break destination
stack a break statement stops fatally in the state it was entered in, so no
branch is emitted; likewise continue with an empty continue destination stack;
in a freshly constructed engine both statements stop fatally. -/
theorem break_continue_without_loop_is_fatal (d : Declared) (s : CFGGen) :
    (s.BreakDestStack = [] → visit d .Break s = .fatal s) ∧
    (s.ContinueDestStack = [] → visit d .Continue s = .fatal s) ∧
    (∀ C, visit d .Break (CFGGen.create C) = .fatal (CFGGen.create C) ∧
      visit d .Continue (CFGGen.create C) = .fatal (CFGGen.create C)) := by
  refine ⟨?_, ?_, fun _ => ⟨rfl, rfl⟩⟩
  · intro h
    simp [visit, visitBreakStmt, h]
  · intro h
    simp [visit, visitContinueStmt, h]

/-- C9 (semi statements are ignored): lowering a `SemiStmt` returns normally in
the very state it was entered in, so that the graph, the insertion block, the
jump destination stacks and the cleanup stack are all as before. -/
theorem visitSemiStmt_unchanged (d : Declared) (s : CFGGen) :
    visit d .Semi s = .ok () s ∧ visitSemiStmt s = .ok () s :=
  ⟨rfl, rfl⟩

/-- C10 (initial state and empty body): constructing the engine on a graph `C`
adds one block at the end, empty and hence open, positions the builder on it,
and starts with empty jump destination stacks and an empty cleanup stack;
finalising right away leaves that block holding the default return alone, and
so does lowering an empty body. -/
theorem create_initial_state (d : Declared) (C : CFG) :
    (CFGGen.create C).C.blocks = C.blocks ++ [{ insts := [] }] ∧
    (CFGGen.create C).B.getInsertionBB = some C.blocks.length ∧
    (CFGGen.create C).C.blocks[C.blocks.length]? = some { insts := [] } ∧
    BasicBlock.isOpen { insts := [] } = true ∧
    (CFGGen.create C).BreakDestStack = [] ∧
    (CFGGen.create C).ContinueDestStack = [] ∧
    (CFGGen.create C).Cleanups = [] ∧
    (CFGGen.destroy (CFGGen.create C)).C.blocks
      = C.blocks ++ [{ insts := [.Return none CFGValue.null] }] ∧
    (CFGGen.destroy (CFGGen.create C)).B.getInsertionBB = none ∧
    lowerBody d C (.Brace [])
      = some { blocks := C.blocks ++ [{ insts := [.Return none CFGValue.null] }] } := by
  have hdestroy : CFGGen.destroy (CFGGen.create C)
      = { C := { blocks := C.blocks ++ [{ insts := [.Return none CFGValue.null] }] }
          B := { BB := none }
          BreakDestStack := []
          ContinueDestStack := []
          Cleanups := [] } := by
    simp [CFGGen.destroy, CFGGen.create, CFG.newBlock, CFGBuilder.getInsertionBB,
      createReturn, CFG.append_last]
  refine ⟨rfl, rfl, ?_, rfl, rfl, rfl, rfl, ?_, ?_, ?_⟩
  · simp [CFGGen.create, CFG.newBlock]
  · rw [hdestroy]
  · rw [hdestroy]
    rfl
  · simp [lowerBody, visit, visitBraceStmt, hdestroy]

/-- Witness of C3: `return;` and `return 7;` lowered in a freshly constructed
engine on the empty graph. -/
theorem visitReturnStmt_operand_witness :
    (∃ s1, visitReturnStmt Declared.literals { Result := none } (CFGGen.create { blocks := [] })
        = .ok () s1 ∧
      s1.C = (CFGGen.create { blocks := [] }).C.append 0
        (.Return (some { Result := none }) CFGValue.null) ∧
      s1.C.blocks[0]?
        = some { insts := [] ++ [.Return (some { Result := none }) CFGValue.null] }) ∧
    (∃ s1, visitReturnStmt Declared.literals
          { Result := some { kind := .IntegerLiteral, node := 7 } }
          (CFGGen.create { blocks := [] })
        = .ok () s1 ∧
      s1.C = (emit [.Other 7] (CFGGen.create { blocks := [] })).C.append 0
        (.Return (some { Result := some { kind := .IntegerLiteral, node := 7 } })
          (CFGValue.handle 7)) ∧
      s1.C.blocks[0]?
        = some { insts := [.Other 7] ++
            [.Return (some { Result := some { kind := .IntegerLiteral, node := 7 } })
              (CFGValue.handle 7)] }) :=
  ⟨(visitReturnStmt_operand Declared.literals { Result := none }
      (CFGGen.create { blocks := [] })).1 0 { insts := [] } rfl rfl rfl,
   (visitReturnStmt_operand Declared.literals
      { Result := some { kind := .IntegerLiteral, node := 7 } }
      (CFGGen.create { blocks := [] })).2 { kind := .IntegerLiteral, node := 7 }
      (CFGValue.handle 7) (emit [.Other 7] (CFGGen.create { blocks := [] })) 0
      { insts := [.Other 7] } rfl rfl rfl rfl⟩

/-- Witness of C4: `return;` lowered in a freshly constructed engine on the
empty graph returns, and leaves no insertion block. -/
theorem visitReturnStmt_no_current_block_witness :
    (CFGGen.create { blocks := [] }).B.getInsertionBB = some 0 ∧
    (∃ s1, visitReturnStmt Declared.literals { Result := none } (CFGGen.create { blocks := [] })
        = .ok () s1) ∧
    (createReturn (some { Result := none }) CFGValue.null
      (CFGGen.create { blocks := [] })).B.getInsertionBB = none :=
  ⟨rfl,
   (visitReturnStmt_no_current_block Declared.literals { Result := none }
      (CFGGen.create { blocks := [] }) 0 rfl).2.1 rfl,
   (visitReturnStmt_no_current_block Declared.literals { Result := none }
      (CFGGen.create { blocks := [] }) 0 rfl).1 _ rfl⟩

/-- Witness of C8: a state inside no loop, with an open block and a pending
cleanup: both statements stop without touching it. -/
theorem break_continue_without_loop_is_fatal_witness :
    visit Declared.literals .Break
        { C := { blocks := [{ insts := [.Other 1] }] }
          B := { BB := some 0 }
          BreakDestStack := []
          ContinueDestStack := []
          Cleanups := [{ scopeTag := 1, action := 7 }] }
      = .fatal
        { C := { blocks := [{ insts := [.Other 1] }] }
          B := { BB := some 0 }
          BreakDestStack := []
          ContinueDestStack := []
          Cleanups := [{ scopeTag := 1, action := 7 }] } ∧
    visit Declared.literals .Continue
        { C := { blocks := [{ insts := [.Other 1] }] }
          B := { BB := some 0 }
          BreakDestStack := []
          ContinueDestStack := []
          Cleanups := [{ scopeTag := 1, action := 7 }] }
      = .fatal
        { C := { blocks := [{ insts := [.Other 1] }] }
          B := { BB := some 0 }
          BreakDestStack := []
          ContinueDestStack := []
          Cleanups := [{ scopeTag := 1, action := 7 }] } :=
  ⟨(break_continue_without_loop_is_fatal Declared.literals _).1 rfl,
   (break_continue_without_loop_is_fatal Declared.literals _).2.1 rfl⟩

/-- C7 (`emitBranch` unwinding): when the cleanup stack is `above ++ below`, with
`below` the entries at or below the destination's cleanup depth, `emitBranch`
appends to the current block the code of each cleanup of `above`, once each and
innermost first, followed by an unconditional branch to the destination's
target; every other block is as before and the cleanup stack is still
`above ++ below`. -/
theorem emitBranch_unwinds (D : JumpDest) (s : CFGGen) (above below : List Cleanup)
    (bb : Nat) (b : BasicBlock)
    (hstack : s.Cleanups = above ++ below) (hdepth : below.length = D.cleanupDepth)
    (hcur : s.B.getInsertionBB = some bb) (hb : s.C.blocks[bb]? = some b) :
    (emitBranch D s).C.blocks[bb]?
        = some { insts := b.insts ++ above.map .CleanupCode ++ [.Branch D.target] } ∧
      (∀ j, j ≠ bb → (emitBranch D s).C.blocks[j]? = s.C.blocks[j]?) ∧
      (emitBranch D s).Cleanups = above ++ below := by
  have hcur' : s.B.BB = some bb := hcur
  have htake : s.Cleanups.take (getCleanupsDepth s - D.cleanupDepth) = above := by
    unfold getCleanupsDepth
    rw [hstack, ← hdepth, List.length_append, Nat.add_sub_cancel]
    exact List.take_left' rfl
  have hemit := foldl_append_self bb (above.map .CleanupCode ++ [.Branch D.target]) s.C b hb
  unfold emitBranch
  rw [htake]
  refine ⟨?_, ?_, ?_⟩
  · simp only [emit, hcur']
    rw [hemit, List.append_assoc]
  · intro j hj
    simp only [emit, hcur']
    exact foldl_append_other bb j hj _ _
  · simp only [emit, hcur']
    exact hstack

/-- Witness of C7: three pending cleanups, a destination captured at depth one:
the two innermost cleanups are emitted, innermost first, then the branch. -/
theorem emitBranch_unwinds_witness :
    (emitBranch { target := 5, cleanupDepth := 1 }
        { C := { blocks := [{ insts := [.Other 1] }, { insts := [.Other 2] }] }
          B := { BB := some 1 }
          BreakDestStack := []
          ContinueDestStack := []
          Cleanups := [{ scopeTag := 3, action := 30 }, { scopeTag := 2, action := 20 },
            { scopeTag := 1, action := 10 }] }).C.blocks[1]?
      = some { insts := [.Other 2] ++
          [{ scopeTag := 3, action := 30 }, { scopeTag := 2, action := 20 }].map .CleanupCode ++
          [.Branch 5] } :=
  (emitBranch_unwinds { target := 5, cleanupDepth := 1 }
    { C := { blocks := [{ insts := [.Other 1] }, { insts := [.Other 2] }] }
      B := { BB := some 1 }
      BreakDestStack := []
      ContinueDestStack := []
      Cleanups := [{ scopeTag := 3, action := 30 }, { scopeTag := 2, action := 20 },
        { scopeTag := 1, action := 10 }] }
    [{ scopeTag := 3, action := 30 }, { scopeTag := 2, action := 20 }]
    [{ scopeTag := 1, action := 10 }] 1 { insts := [.Other 2] } rfl rfl rfl rfl).1

/-- C6 (termination totality across return and finalisation): for a body of semi
statements and at most one return, lowered in an engine constructed on the
graph `C` with control-flow trivial expression lowering: the finished graph is
`C` followed by one block that has exactly one terminator, as its last
instruction (so that, when the blocks of `C` are terminated, every block is);
after finalisation there is no current block; when the body holds a return the
destructor changes nothing; and a finished graph is produced whenever no
return of the body has a result expression. -/
theorem body_blocks_terminated (d : Declared) (hd : d.straightLine) (C : CFG)
    (body : List Stmt)
    (hkind : ∀ S ∈ body, S = Stmt.Semi ∨ ∃ R, S = Stmt.Return R)
    (hone : (body.filter Stmt.isReturn).length ≤ 1) :
    (∀ G, lowerBody d C (.Brace body) = some G →
      (∃ b, G.blocks = C.blocks ++ [b] ∧ b.terminated = true) ∧
      ((∀ b0 ∈ C.blocks, b0.terminated = true) → ∀ b ∈ G.blocks, b.terminated = true)) ∧
    (∀ s, visit d (.Brace body) (CFGGen.create C) = .ok () s →
      (CFGGen.destroy s).B.getInsertionBB = none ∧
      ((body.filter Stmt.isReturn).length = 1 → CFGGen.destroy s = s)) ∧
    ((∀ S ∈ body, S = Stmt.Semi ∨ S = Stmt.Return { Result := none }) →
      ∃ G, lowerBody d C (.Brace body) = some G) := by
  have hC0 : (CFGGen.create C).C.blocks = C.blocks ++ [{ insts := [] }] := rfl
  have hcur0 : (CFGGen.create C).B.BB = some C.blocks.length := rfl
  have hopen0 : BasicBlock.isOpen { insts := [] } = true := rfl
  have key : ∀ s, visit d (.Brace body) (CFGGen.create C) = .ok () s →
      (∃ b, (CFGGen.destroy s).C.blocks = C.blocks ++ [b] ∧ b.terminated = true) ∧
      (CFGGen.destroy s).B.getInsertionBB = none ∧
      ((body.filter Stmt.isReturn).length = 1 → CFGGen.destroy s = s) := by
    intro s hs
    simp only [visit] at hs
    rcases visitBraceStmt_one_return d hd C.blocks _ hopen0 body _ s hkind hone hC0 hcur0 hs
      with ⟨hs1, hzero⟩ | ⟨hBB, ⟨b1, hb1, hterm⟩, hlen⟩
    · subst hs1
      have hne : (CFGGen.create C).B.getInsertionBB ≠ none := by
        simp [CFGGen.create, CFGBuilder.getInsertionBB]
      unfold CFGGen.destroy
      rw [if_pos hne]
      refine ⟨⟨_, createReturn_last _ _ _ C.blocks _ hC0 hcur0, ?_⟩, createReturn_BB _ _ _, ?_⟩
      · exact terminated_of_isOpen _ _ hopen0 rfl
      · intro h1
        omega
    · have hd0 : CFGGen.destroy s = s := by
        unfold CFGGen.destroy
        simp [CFGBuilder.getInsertionBB, hBB]
      rw [hd0]
      exact ⟨⟨b1, hb1, hterm⟩, hBB, fun _ => rfl⟩
  refine ⟨?_, ?_, ?_⟩
  · intro G hG
    unfold lowerBody at hG
    cases hv : visit d (.Brace body) (CFGGen.create C) with
    | fatal s0 =>
      simp only [hv] at hG
      cases hG
    | ok u s =>
      simp only [hv, Option.some.injEq] at hG
      obtain ⟨⟨b, hb, hterm⟩, _, _⟩ := key s hv
      rw [hG] at hb
      refine ⟨⟨b, hb, hterm⟩, ?_⟩
      intro hall b2 hb2
      rw [hb, List.mem_append, List.mem_singleton] at hb2
      rcases hb2 with h2 | h2
      · exact hall b2 h2
      · rw [h2]
        exact hterm
  · intro s hs
    exact (key s hs).2
  · intro hplain
    obtain ⟨s1, hs1⟩ := visitBraceStmt_returns d body (CFGGen.create C) hplain
    refine ⟨(CFGGen.destroy s1).C, ?_⟩
    unfold lowerBody
    simp only [visit, hs1]

/-- Witness of C6: the body `; return 7; ;` lowered on the empty graph gives one
block, holding the code of the literal and then the return. -/
theorem body_blocks_terminated_witness :
    (∃ b, ({ blocks := [{ insts := [.Other 7,
        .Return (some { Result := some { kind := .IntegerLiteral, node := 7 } })
          (CFGValue.handle 7)] }] } : CFG).blocks = [] ++ [b] ∧ b.terminated = true) ∧
    ((∀ b0 ∈ ([] : List BasicBlock), b0.terminated = true) →
      ∀ b ∈ ({ blocks := [{ insts := [.Other 7,
        .Return (some { Result := some { kind := .IntegerLiteral, node := 7 } })
          (CFGValue.handle 7)] }] } : CFG).blocks, b.terminated = true) :=
  (body_blocks_terminated Declared.literals literals_straightLine { blocks := [] }
    [.Semi, .Return { Result := some { kind := .IntegerLiteral, node := 7 } }, .Semi]
    (by
      intro S hS
      simp only [List.mem_cons, List.mem_singleton, List.not_mem_nil, or_false] at hS
      rcases hS with h | h | h
      · exact Or.inl h
      · exact Or.inr ⟨_, h⟩
      · exact Or.inl h)
    (by decide)).1
    { blocks := [{ insts := [.Other 7,
        .Return (some { Result := some { kind := .IntegerLiteral, node := 7 } })
          (CFGValue.handle 7)] }] }
    rfl

end Lowering

end swift
